import Mathlib

/-!
Shallow embedding of the `ulid-workers` library (`src/ulid.ts`) in Lean 4.

The library generates and decodes ULIDs: 26-character Crockford Base32
strings made of a 10-character / 48-bit millisecond timestamp followed by a
16-character / 80-bit random field.  Strings are modelled as `List Char`,
JavaScript numbers reaching the timestamp validator as a sum type `JSNum`
(NaN, the two infinities, or a finite value modelled as a rational), and
the crypto random-byte source as an explicit function `Nat → Fin 256`
giving the successive bytes drawn by `webCryptoPRNG`.
-/

namespace UlidWorkers

/-- Error kinds of the library, abstracted from the thrown messages.
`TypeError` = "timestamp must be a number" (and the runtime TypeError hit
when `incrementBase32` receives `undefined`); `RangeError` = "larger than
2^48-1" / "must be positive" / "timestamp too large"; `ValueError` =
"must be an integer"; `FormatError` = "Malformed ULID" (bad length);
`DecodeError` = "Incorrectly encoded string" / "Invalid character";
`LengthError` = "cannot be longer than 16 characters"; `OverflowError` =
"Cannot increment Base32 maximum value". -/
inductive Err where
  | TypeError
  | RangeError
  | ValueError
  | FormatError
  | DecodeError
  | LengthError
  | OverflowError
deriving DecidableEq, Repr

/-- `const ENCODING = "0123456789ABCDEFGHJKMNPQRSTVWXYZ"` (Crockford Base32). -/
def ENCODING : List Char := "0123456789ABCDEFGHJKMNPQRSTVWXYZ".toList

/-- `const ENCODING_LEN = ENCODING.length` (= 32). -/
def ENCODING_LEN : Nat := 32

/-- `const TIME_MAX = Math.pow(2, 48) - 1`. -/
def TIME_MAX : Nat := 2 ^ 48 - 1

/-- `const TIME_LEN = 10`. -/
def TIME_LEN : Nat := 10

/-- `const RANDOM_LEN = 16`. -/
def RANDOM_LEN : Nat := 16

/-- Scanning core of JavaScript `String.prototype.indexOf`, restricted to
one-character needles: position of the first occurrence of `c` in `l`,
offset by `i`, or `none` (JS `-1`) when absent. -/
def indexOfAux : List Char → Char → Nat → Option Nat
  | [], _, _ => none
  | d :: rest, c, i => if d = c then some i else indexOfAux rest c (i + 1)

/-- `ENCODING.indexOf(char)`, with JS `-1` rendered as `none`. -/
def charIdx (c : Char) : Option Nat := indexOfAux ENCODING c 0

/-- `ENCODING.charAt(k)` / `ENCODING[k]` for the in-range indices used by
the library (every call site has `k < 32`). -/
def encChar (k : Nat) : Char := ENCODING.getD k '0'

/-- A JavaScript number as it can reach `validateTimestamp`: NaN, an
infinity, or a finite value (every finite IEEE double is rational). -/
inductive JSNum where
  | nan
  | posInf
  | negInf
  | fin (q : ℚ)

/-- `validateTimestamp(timestamp)` (src/ulid.ts:36-48), with the checks in
source order: `isNaN` → TypeError; `> TIME_MAX` → RangeError (this is the
branch taken by `Infinity`); `< 0` → RangeError; `!Number.isInteger` →
ValueError.  Returns `none` on success (the JS function returns nothing). -/
def validateTimestamp : JSNum → Option Err
  | .nan => some .TypeError
  | .posInf => some .RangeError
  | .negInf => some .RangeError
  | .fin q =>
    if (TIME_MAX : ℚ) < q then some .RangeError
    else if q < 0 then some .RangeError
    else if q.den ≠ 1 then some .ValueError
    else none

/-- `validateTimestamp` specialized to the natural-number timestamps that
flow through the generators: a `Nat` is never NaN, negative or fractional,
so only the `> TIME_MAX` check can fire. -/
def validateTimestampN (t : Nat) : Option Err :=
  if TIME_MAX < t then some .RangeError else none

/-- The digit-emitting loop of `encodeTime` (src/ulid.ts:56-60): repeatedly
take `timestamp % 32` as the next least-significant digit, prepend its
alphabet character, and divide the timestamp by 32; `len` iterations. -/
def encodeLoop : Nat → Nat → List Char → List Char
  | _, 0, acc => acc
  | t, n + 1, acc => encodeLoop (t / 32) n (encChar (t % 32) :: acc)

/-- `encodeTime(timestamp, len)` (src/ulid.ts:50-63): validate, then run the
division loop. -/
def encodeTime (t : Nat) (len : Nat) : Except Err (List Char) :=
  match validateTimestampN t with
  | some e => .error e
  | none => .ok (encodeLoop t len [])

/-- `randomChar()` (src/ulid.ts:99-105) applied to the byte drawn by
`webCryptoPRNG` (src/ulid.ts:22-26): `rand = floor((byte / 255) * 32)`,
clamped from 32 down to 31 when the byte is 255; then `ENCODING.charAt`.
For `b ≤ 255`, `⌊(b / 255) * 32⌋ = b * 32 / 255` in natural division. -/
def randomChar (b : Fin 256) : Char :=
  let rand := b.val * 32 / 255
  encChar (if rand = 32 then 31 else rand)

/-- `encodeRandom(len)` (src/ulid.ts:28-34): draw `len` random characters,
each prepended to the string built so far (so the first byte drawn becomes
the last character).  `src i` is the `i`-th byte drawn. -/
def encodeRandom (src : Nat → Fin 256) : Nat → List Char
  | 0 => []
  | n + 1 => randomChar (src n) :: encodeRandom src n

/-- The carry loop of `incrementBase32` (src/ulid.ts:81-92), acting on the
reversed string (the JS loop walks indices from the last character down;
after consuming the whole string it reads `output[-1] = undefined`, whose
`indexOf` is `-1`, so the all-consumed case throws "Incorrectly encoded
string", i.e. `DecodeError`).  A character at the alphabet's last index
(31, `'Z'`) is replaced by `'0'` and the carry continues; a character not
in the alphabet throws `DecodeError`; any other character is replaced by
its successor and the loop stops. -/
def incRev : List Char → Except Err (List Char)
  | [] => .error .DecodeError
  | c :: rest =>
    match charIdx c with
    | none => .error .DecodeError
    | some k =>
      if k = 31 then
        match incRev rest with
        | .error e => .error e
        | .ok r => .ok (encChar 0 :: r)
      else .ok (encChar (k + 1) :: rest)

/-- `incrementBase32(str)` (src/ulid.ts:65-97): reject strings longer than
`RANDOM_LEN` (LengthError), reject the exact string `"Z".repeat(16)`
(OverflowError), otherwise run the carry loop from the last character. -/
def incrementBase32 (s : List Char) : Except Err (List Char) :=
  if RANDOM_LEN < s.length then .error .LengthError
  else if s = List.replicate RANDOM_LEN 'Z' then .error .OverflowError
  else
    match incRev s.reverse with
    | .error e => .error e
    | .ok r => .ok r.reverse

/-- The `reduce` of `decodeTime` (src/ulid.ts:124-134): fold over the
reversed time portion, `carry += ENCODING.indexOf(char) * 32^index`,
throwing `DecodeError` at the first character not in the alphabet. -/
def decodeLoop : List Char → Nat → Nat → Except Err Nat
  | [], _, carry => .ok carry
  | c :: rest, i, carry =>
    match charIdx c with
    | none => .error .DecodeError
    | some k => decodeLoop rest (i + 1) (carry + k * 32 ^ i)

/-- `decodeTime(id)` (src/ulid.ts:119-141): length must be exactly 26
(`FormatError`), then decode the first 10 characters (reversed, with
positional powers of 32), then reject values above `TIME_MAX`
(`RangeError`). -/
def decodeTime (id : List Char) : Except Err Nat :=
  if id.length ≠ TIME_LEN + RANDOM_LEN then .error .FormatError
  else
    match decodeLoop (id.take TIME_LEN).reverse 0 0 with
    | .error e => .error e
    | .ok t => if TIME_MAX < t then .error .RangeError else .ok t

/-- Closure state of the monotonic factory (src/ulid.ts:152-153):
`let lastTime: number = 0; let lastRandom: string;` — `lastRandom` starts
out `undefined`, modelled as `none`. -/
structure GenState where
  lastTime : Nat
  lastRandom : Option (List Char)
deriving DecidableEq

/-- The initial closure state: `lastTime = 0`, `lastRandom = undefined`. -/
def initState : GenState := ⟨0, none⟩

/-- `timestamp || Date.now()` (src/ulid.ts:155,174): an absent argument
uses the clock, and so does an explicit `0`, because `0` is falsy in
JavaScript. -/
def resolveTs : Option Nat → Nat → Nat
  | none, now => now
  | some t, now => if t = 0 then now else t

/-- One call of the monotonic generator (src/ulid.ts:154-169).  `ts?` is
the optional explicit timestamp, `now` the value `Date.now()` would
return, `src` the random bytes this call would draw.  When the resolved
timestamp exceeds `lastTime` the state advances and fresh randomness is
drawn; otherwise `lastRandom` is incremented (reading `undefined` on a
first call raises the runtime `TypeError`). -/
def generateMono (ts? : Option Nat) (now : Nat) (src : Nat → Fin 256)
    (st : GenState) : Except Err (List Char × GenState) :=
  let t := resolveTs ts? now
  match validateTimestampN t with
  | some e => .error e
  | none =>
    if st.lastTime < t then
      let random := encodeRandom src RANDOM_LEN
      match encodeTime t TIME_LEN with
      | .error e => .error e
      | .ok ts => .ok (ts ++ random, ⟨t, some random⟩)
    else
      match st.lastRandom with
      | none => .error .TypeError
      | some lr =>
        match incrementBase32 lr with
        | .error e => .error e
        | .ok r =>
          match encodeTime st.lastTime TIME_LEN with
          | .error e => .error e
          | .ok ts => .ok (ts ++ r, ⟨st.lastTime, some r⟩)

/-- One call of the non-monotonic generator (src/ulid.ts:173-177):
stateless; encode the resolved timestamp and fresh randomness. -/
def generateNonMono (ts? : Option Nat) (now : Nat) (src : Nat → Fin 256) :
    Except Err (List Char) :=
  let t := resolveTs ts? now
  match validateTimestampN t with
  | some e => .error e
  | none =>
    match encodeTime t TIME_LEN with
    | .error e => .error e
    | .ok ts => .ok (ts ++ encodeRandom src RANDOM_LEN)

/-- One input to a generator call: the optional explicit timestamp, the
clock value, and the random bytes available to that call. -/
structure CallIn where
  ts : Option Nat
  now : Nat
  src : Nat → Fin 256

/-- Run a sequence of calls on one monotonic generator instance, collecting
the emitted IDs; stops at the first error. -/
def runMono : GenState → List CallIn → Except Err (List (List Char))
  | _, [] => .ok []
  | st, i :: rest =>
    match generateMono i.ts i.now i.src st with
    | .error e => .error e
    | .ok (id, st') =>
      match runMono st' rest with
      | .error e => .error e
      | .ok ids => .ok (id :: ids)

/-- Lexicographic strict order on strings (as JavaScript `<` compares
strings, and as `List Char` orders): a proper initial segment is smaller,
otherwise compare the first differing character. -/
def lexLt : List Char → List Char → Bool
  | [], [] => false
  | [], _ :: _ => true
  | _ :: _, [] => false
  | a :: as, b :: bs => a < b || (a = b && lexLt as bs)

/-- All characters of the string are in the Base32 alphabet. -/
def allValid (s : List Char) : Prop := ∀ c ∈ s, (charIdx c).isSome

instance : DecidablePred allValid := fun s =>
  inferInstanceAs (Decidable (∀ c ∈ s, (charIdx c).isSome))

/-- Numeric value of a string of Base32 digits, least-significant digit
first (the orientation of the decoder's reversed fold). -/
def lsbVal : List Char → Nat
  | [] => 0
  | c :: rest => (charIdx c).getD 0 + 32 * lsbVal rest

/-- Numeric value of a string of Base32 digits, most-significant digit
first (the orientation of ULID strings themselves). -/
def msbVal (s : List Char) : Nat := lsbVal s.reverse

/-- Invariant of the monotonic generator's closure state: the stored
timestamp is in range and the stored random field, when present, is a
well-formed 16-character Base32 string.  It holds for the initial state
and is preserved by every successful call. -/
def GoodState (st : GenState) : Prop :=
  st.lastTime ≤ TIME_MAX ∧
    ∀ r, st.lastRandom = some r → allValid r ∧ r.length = RANDOM_LEN

/-- Numeric reading of a generator state: the 26-digit value
`lastTime * 32^16 + lastRandom` that the next emitted ID must exceed
(`lastRandom` counting as 0 when still unset). -/
def stateVal (st : GenState) : Nat :=
  st.lastTime * 32 ^ 16 +
    (match st.lastRandom with
     | some r => msbVal r
     | none => 0)

/-! ### Facts about the alphabet table -/

lemma ENCODING_length : ENCODING.length = 32 := by decide

-- The alphabet has no repeated characters: looking up the character
-- written at index `k` finds it back at index `k`.
lemma charIdx_encChar : ∀ k < 32, charIdx (encChar k) = some k := by decide

-- The alphabet is listed in strictly increasing character order, so the
-- order of two alphabet characters agrees with the order of their digit
-- values.
set_option maxRecDepth 8192 in
lemma encChar_lt_iff : ∀ i < 32, ∀ j < 32, (encChar i < encChar j ↔ i < j) := by decide

lemma encChar_valid {k : Nat} (h : k < 32) : (charIdx (encChar k)).isSome := by
  rw [charIdx_encChar k h]; rfl

-- Every byte is rendered by `randomChar` as an alphabet character.
set_option maxRecDepth 8192 in
lemma randomChar_valid : ∀ b : Fin 256, (charIdx (randomChar b)).isSome := by decide

lemma indexOfAux_some : ∀ (l : List Char) (c : Char) (i j : Nat),
    indexOfAux l c i = some j → i ≤ j ∧ j - i < l.length ∧ l.getD (j - i) c = c := by
  intro l
  induction l with
  | nil => intro c i j h; simp [indexOfAux] at h
  | cons d rest ih =>
    intro c i j h
    by_cases hd : d = c
    · subst hd
      simp [indexOfAux] at h
      subst h
      refine ⟨Nat.le_refl _, by simp, by simp⟩
    · simp only [indexOfAux, if_neg hd] at h
      obtain ⟨h1, h2, h3⟩ := ih c (i + 1) j h
      refine ⟨by omega, by simp only [List.length_cons]; omega, ?_⟩
      have hji : j - i = (j - (i + 1)) + 1 := by omega
      rw [hji]
      simpa using h3

lemma charIdx_some {c : Char} {k : Nat} (h : charIdx c = some k) :
    k < 32 ∧ encChar k = c := by
  obtain ⟨h1, h2, h3⟩ := indexOfAux_some ENCODING c 0 k h
  rw [Nat.sub_zero] at h2 h3
  rw [ENCODING_length] at h2
  refine ⟨h2, ?_⟩
  have hd : ENCODING.getD k '0' = ENCODING.getD k c := by
    rw [List.getD_eq_getElem ENCODING '0' (by rw [ENCODING_length]; exact h2),
        List.getD_eq_getElem ENCODING c (by rw [ENCODING_length]; exact h2)]
  unfold encChar
  rw [hd, h3]

lemma indexOfAux_isSome : ∀ (l : List Char) (c : Char) (i : Nat),
    (indexOfAux l c i).isSome ↔ c ∈ l := by
  intro l
  induction l with
  | nil => intro c i; simp [indexOfAux]
  | cons d rest ih =>
    intro c i
    by_cases hd : d = c
    · subst hd; simp [indexOfAux]
    · simp [indexOfAux, if_neg hd, ih c (i + 1), List.mem_cons, Ne.symm hd]

lemma charIdx_isSome_iff {c : Char} : (charIdx c).isSome ↔ c ∈ ENCODING :=
  indexOfAux_isSome ENCODING c 0

/-! ### Facts about `allValid` and the numeric value of digit strings -/

lemma allValid_cons {c : Char} {s : List Char} :
    allValid (c :: s) ↔ (charIdx c).isSome ∧ allValid s := by
  simp [allValid]

lemma allValid_append {s u : List Char} :
    allValid (s ++ u) ↔ allValid s ∧ allValid u := by
  simp only [allValid, List.mem_append]
  constructor
  · intro h; exact ⟨fun c hc => h c (Or.inl hc), fun c hc => h c (Or.inr hc)⟩
  · intro h c hc; rcases hc with hc | hc
    · exact h.1 c hc
    · exact h.2 c hc

lemma allValid_reverse {s : List Char} : allValid s.reverse ↔ allValid s := by
  simp [allValid]

lemma lsbVal_append (a b : List Char) :
    lsbVal (a ++ b) = lsbVal a + 32 ^ a.length * lsbVal b := by
  induction a with
  | nil => simp [lsbVal]
  | cons c a ih =>
    rw [List.cons_append]
    simp only [lsbVal]
    rw [ih, List.length_cons, pow_succ]
    ring

lemma msbVal_nil : msbVal [] = 0 := rfl

lemma msbVal_cons (c : Char) (s : List Char) :
    msbVal (c :: s) = (charIdx c).getD 0 * 32 ^ s.length + msbVal s := by
  unfold msbVal
  rw [List.reverse_cons, lsbVal_append]
  simp [lsbVal]
  ring

lemma msbVal_append (s u : List Char) :
    msbVal (s ++ u) = msbVal s * 32 ^ u.length + msbVal u := by
  unfold msbVal
  rw [List.reverse_append, lsbVal_append]
  simp
  ring

lemma msbVal_lt {s : List Char} (h : allValid s) : msbVal s < 32 ^ s.length := by
  induction s with
  | nil => simp [msbVal, lsbVal]
  | cons c rest ih =>
    rw [allValid_cons] at h
    obtain ⟨k, hk⟩ := Option.isSome_iff_exists.mp h.1
    obtain ⟨hk32, -⟩ := charIdx_some hk
    have hv := ih h.2
    rw [msbVal_cons, hk, Option.getD_some, List.length_cons, pow_succ]
    have h1 : k * 32 ^ rest.length + msbVal rest < (k + 1) * 32 ^ rest.length := by
      rw [Nat.succ_mul]; exact Nat.add_lt_add_left hv _
    have h2 : (k + 1) * 32 ^ rest.length ≤ 32 * 32 ^ rest.length :=
      Nat.mul_le_mul_right _ hk32
    calc k * 32 ^ rest.length + msbVal rest
        < (k + 1) * 32 ^ rest.length := h1
      _ ≤ 32 * 32 ^ rest.length := h2
      _ = 32 ^ rest.length * 32 := Nat.mul_comm _ _

/-! ### Lexicographic order versus numeric value -/

lemma val_head_lt {ka kb va vb B : Nat} (h : ka < kb) (hva : va < B) :
    ka * B + va < kb * B + vb := by
  have h1 : ka * B + va < (ka + 1) * B := by
    rw [Nat.succ_mul]; exact Nat.add_lt_add_left hva _
  have h2 : (ka + 1) * B ≤ kb * B := Nat.mul_le_mul_right _ h
  exact Nat.lt_of_lt_of_le h1 (Nat.le_trans h2 (Nat.le_add_right _ _))

-- On well-formed strings of equal length, the string order used by
-- JavaScript agrees with the numeric Base32 value.
lemma lexLt_iff : ∀ (s t : List Char), allValid s → allValid t → s.length = t.length →
    (lexLt s t = true ↔ msbVal s < msbVal t) := by
  intro s
  induction s with
  | nil =>
    intro t _ _ hlen
    cases t with
    | nil => simp [lexLt, msbVal, lsbVal]
    | cons b bs => simp at hlen
  | cons a as ih =>
    intro t hs ht hlen
    cases t with
    | nil => simp at hlen
    | cons b bs =>
      rw [allValid_cons] at hs ht
      obtain ⟨ka, hka⟩ := Option.isSome_iff_exists.mp hs.1
      obtain ⟨kb, hkb⟩ := Option.isSome_iff_exists.mp ht.1
      obtain ⟨hka32, hae⟩ := charIdx_some hka
      obtain ⟨hkb32, hbe⟩ := charIdx_some hkb
      have hlen' : as.length = bs.length := by simpa using hlen
      have hva := msbVal_lt hs.2
      have hvb := msbVal_lt ht.2
      rw [msbVal_cons, msbVal_cons, hka, hkb, Option.getD_some, Option.getD_some, hlen']
      rcases Nat.lt_trichotomy ka kb with hlt | heq | hgt
      · have hab : a < b := by
          rw [← hae, ← hbe]; exact (encChar_lt_iff ka hka32 kb hkb32).mpr hlt
        constructor
        · intro _
          exact val_head_lt hlt (hlen' ▸ hva)
        · intro _
          simp [lexLt, hab]
      · subst heq
        have hab : a = b := by rw [← hae, ← hbe]
        subst hab
        have hdlt : (decide (a < a)) = false := decide_eq_false (lt_irrefl a)
        have hdeq : (decide (a = a)) = true := decide_eq_true rfl
        simp only [lexLt, hdlt, hdeq, Bool.false_or, Bool.true_and]
        rw [Nat.add_lt_add_iff_left]
        exact ih bs hs.2 ht.2 hlen'
      · have hne : a ≠ b := by
          intro h
          rw [h, hkb] at hka
          cases hka
          exact Nat.lt_irrefl _ hgt
        have hnlt : ¬ a < b := by
          rw [← hae, ← hbe]
          intro hc
          exact Nat.lt_asymm hgt ((encChar_lt_iff ka hka32 kb hkb32).mp hc)
        have hval : kb * 32 ^ bs.length + msbVal bs < ka * 32 ^ bs.length + msbVal as :=
          val_head_lt hgt hvb
        exact iff_of_false (by simp [lexLt, hnlt, hne]) (Nat.lt_asymm hval)

lemma lexLt_total : ∀ (s t : List Char), s.length = t.length → s ≠ t →
    lexLt s t = true ∨ lexLt t s = true := by
  intro s
  induction s with
  | nil =>
    intro t hlen hne
    cases t with
    | nil => exact absurd rfl hne
    | cons b bs => simp at hlen
  | cons a as ih =>
    intro t hlen hne
    cases t with
    | nil => simp at hlen
    | cons b bs =>
      rcases lt_trichotomy a b with hab | hab | hab
      · left; simp [lexLt, hab]
      · subst hab
        have hne' : as ≠ bs := by
          intro h; exact hne (by rw [h])
        rcases ih bs (by simpa using hlen) hne' with h1 | h1
        · left; simp [lexLt, h1]
        · right; simp [lexLt, h1]
      · right; simp [lexLt, hab]

lemma msbVal_inj {s t : List Char} (hs : allValid s) (ht : allValid t)
    (hlen : s.length = t.length) (h : msbVal s = msbVal t) : s = t := by
  by_contra hne
  rcases lexLt_total s t hlen hne with h1 | h1
  · exact absurd ((lexLt_iff s t hs ht hlen).mp h1) (by omega)
  · exact absurd ((lexLt_iff t s ht hs hlen.symm).mp h1) (by omega)

/-! ### The encode loop -/

lemma encodeLoop_acc : ∀ (n t : Nat) (acc : List Char),
    encodeLoop t n acc = encodeLoop t n [] ++ acc := by
  intro n
  induction n with
  | zero => intro t acc; simp [encodeLoop]
  | succ n ih =>
    intro t acc
    show encodeLoop (t / 32) n (encChar (t % 32) :: acc) =
      encodeLoop (t / 32) n [encChar (t % 32)] ++ acc
    rw [ih (t / 32) (encChar (t % 32) :: acc), ih (t / 32) [encChar (t % 32)]]
    simp

lemma encodeLoop_succ (n t : Nat) :
    encodeLoop t (n + 1) [] = encodeLoop (t / 32) n [] ++ [encChar (t % 32)] := by
  show encodeLoop (t / 32) n [encChar (t % 32)] = _
  exact encodeLoop_acc n (t / 32) [encChar (t % 32)]

lemma encodeLoop_length : ∀ (n t : Nat), (encodeLoop t n []).length = n := by
  intro n
  induction n with
  | zero => intro t; rfl
  | succ n ih => intro t; rw [encodeLoop_succ]; simp [ih]

lemma encodeLoop_valid : ∀ (n t : Nat), allValid (encodeLoop t n []) := by
  intro n
  induction n with
  | zero => intro t c hc; cases hc
  | succ n ih =>
    intro t
    rw [encodeLoop_succ, allValid_append]
    refine ⟨ih (t / 32), ?_⟩
    intro c hc
    rw [List.mem_singleton] at hc
    subst hc
    exact encChar_valid (Nat.mod_lt _ (by norm_num))

lemma encodeLoop_msbVal : ∀ (n t : Nat), msbVal (encodeLoop t n []) = t % 32 ^ n := by
  intro n
  induction n with
  | zero => intro t; simp [encodeLoop, msbVal, lsbVal, Nat.mod_one]
  | succ n ih =>
    intro t
    rw [encodeLoop_succ, msbVal_append, ih (t / 32)]
    have hm : msbVal [encChar (t % 32)] = t % 32 := by
      rw [msbVal_cons, msbVal_nil,
        charIdx_encChar (t % 32) (Nat.mod_lt _ (by norm_num))]
      simp
    rw [hm, pow_succ']
    rw [Nat.mod_mul]
    simp [List.length_cons]
    ring

lemma encodeTime_of_le {t : Nat} (h : t ≤ TIME_MAX) :
    encodeTime t TIME_LEN = .ok (encodeLoop t TIME_LEN []) := by
  unfold encodeTime validateTimestampN
  rw [if_neg (by omega)]

lemma TIME_MAX_lt_pow10 : TIME_MAX < 32 ^ 10 := by norm_num [TIME_MAX]

lemma encodeLoop_msbVal_of_le {t : Nat} (h : t ≤ TIME_MAX) :
    msbVal (encodeLoop t TIME_LEN []) = t := by
  rw [encodeLoop_msbVal]
  exact Nat.mod_eq_of_lt (Nat.lt_of_le_of_lt h TIME_MAX_lt_pow10)

/-! ### The decode loop and `decodeTime` -/

lemma decodeLoop_of_valid : ∀ (l : List Char) (i carry : Nat), allValid l →
    decodeLoop l i carry = .ok (carry + 32 ^ i * lsbVal l) := by
  intro l
  induction l with
  | nil => intro i carry _; simp [decodeLoop, lsbVal]
  | cons c rest ih =>
    intro i carry hv
    rw [allValid_cons] at hv
    obtain ⟨k, hk⟩ := Option.isSome_iff_exists.mp hv.1
    simp only [decodeLoop, hk]
    rw [ih (i + 1) (carry + k * 32 ^ i) hv.2]
    congr 1
    simp only [lsbVal, hk, Option.getD_some, pow_succ]
    ring

lemma decodeLoop_of_invalid : ∀ (l : List Char) (i carry : Nat),
    (∃ c ∈ l, charIdx c = none) → decodeLoop l i carry = .error .DecodeError := by
  intro l
  induction l with
  | nil => intro i carry h; simp at h
  | cons c rest ih =>
    intro i carry h
    cases hc : charIdx c with
    | none => simp [decodeLoop, hc]
    | some k =>
      simp only [decodeLoop, hc]
      apply ih
      obtain ⟨d, hd, hdn⟩ := h
      rcases List.mem_cons.mp hd with rfl | hd'
      · rw [hc] at hdn; cases hdn
      · exact ⟨d, hd', hdn⟩

lemma decodeTime_of_ok {id : List Char} (h26 : id.length = 26)
    (hv : allValid (id.take 10)) (hle : msbVal (id.take 10) ≤ TIME_MAX) :
    decodeTime id = .ok (msbVal (id.take 10)) := by
  have hloop := decodeLoop_of_valid (id.take 10).reverse 0 0 (allValid_reverse.mpr hv)
  have hval : (0 : Nat) + 32 ^ 0 * lsbVal (id.take 10).reverse = msbVal (id.take 10) := by
    simp [msbVal]
  rw [hval] at hloop
  unfold decodeTime
  rw [if_neg (by simp [TIME_LEN, RANDOM_LEN, h26])]
  simp only [TIME_LEN]
  split
  · rename_i e heq
    rw [hloop] at heq
    cases heq
  · rename_i tval heq
    rw [hloop] at heq
    injection heq with heq'
    subst heq'
    rw [if_neg (by omega)]

lemma decodeTime_of_bad_length {id : List Char} (h : id.length ≠ 26) :
    decodeTime id = .error .FormatError := by
  unfold decodeTime
  rw [if_pos (by simpa [TIME_LEN, RANDOM_LEN] using h)]

lemma decodeTime_of_bad_char {id : List Char} (h26 : id.length = 26)
    (h : ∃ c ∈ id.take 10, charIdx c = none) :
    decodeTime id = .error .DecodeError := by
  have hloop : decodeLoop (id.take 10).reverse 0 0 = .error .DecodeError := by
    apply decodeLoop_of_invalid
    obtain ⟨c, hc, hcn⟩ := h
    exact ⟨c, List.mem_reverse.mpr hc, hcn⟩
  unfold decodeTime
  rw [if_neg (by simp [TIME_LEN, RANDOM_LEN, h26])]
  simp only [TIME_LEN]
  split
  · rename_i e heq
    rw [hloop] at heq
    injection heq with heq'
    rw [heq']
  · rename_i tval heq
    rw [hloop] at heq
    cases heq

lemma decodeTime_of_large {id : List Char} (h26 : id.length = 26)
    (hv : allValid (id.take 10)) (hgt : TIME_MAX < msbVal (id.take 10)) :
    decodeTime id = .error .RangeError := by
  have hloop := decodeLoop_of_valid (id.take 10).reverse 0 0 (allValid_reverse.mpr hv)
  have hval : (0 : Nat) + 32 ^ 0 * lsbVal (id.take 10).reverse = msbVal (id.take 10) := by
    simp [msbVal]
  rw [hval] at hloop
  unfold decodeTime
  rw [if_neg (by simp [TIME_LEN, RANDOM_LEN, h26])]
  simp only [TIME_LEN]
  split
  · rename_i e heq
    rw [hloop] at heq
    cases heq
  · rename_i tval heq
    rw [hloop] at heq
    injection heq with heq'
    subst heq'
    rw [if_pos hgt]

-- `decodeTime` only looks at the first ten characters of a 26-character
-- string: any length-16 tail gives the same result.
lemma decodeTime_front {pre suf : List Char} (h10 : pre.length = 10)
    (h16 : suf.length = 16) (hv : allValid pre) (hle : msbVal pre ≤ TIME_MAX) :
    decodeTime (pre ++ suf) = .ok (msbVal pre) := by
  have htake : (pre ++ suf).take 10 = pre := by
    rw [← h10]; exact List.take_left pre suf
  have h26 : (pre ++ suf).length = 26 := by simp [h10, h16]
  rw [decodeTime_of_ok h26 (by rw [htake]; exact hv) (by rw [htake]; exact hle), htake]

/-! ### The increment carry loop -/

lemma incRev_of_valid : ∀ (l : List Char), allValid l → (∃ c ∈ l, c ≠ 'Z') →
    ∃ r, incRev l = .ok r ∧ allValid r ∧ r.length = l.length ∧
      lsbVal r = lsbVal l + 1 := by
  intro l
  induction l with
  | nil => intro _ h; simp at h
  | cons c rest ih =>
    intro hv hex
    rw [allValid_cons] at hv
    obtain ⟨k, hk⟩ := Option.isSome_iff_exists.mp hv.1
    obtain ⟨hk32, hke⟩ := charIdx_some hk
    by_cases h31 : k = 31
    · subst h31
      have hcz : c = 'Z' := by rw [← hke]; rfl
      obtain ⟨d, hd, hdz⟩ := hex
      rcases List.mem_cons.mp hd with rfl | hd'
      · exact absurd hcz hdz
      · obtain ⟨r, hr, hrv, hrl, hrval⟩ := ih hv.2 ⟨d, hd', hdz⟩
        refine ⟨encChar 0 :: r, ?_, ?_, ?_, ?_⟩
        · simp [incRev, hk, hr]
        · rw [allValid_cons]; exact ⟨encChar_valid (by norm_num), hrv⟩
        · simp [hrl]
        · simp only [lsbVal, hrval, charIdx_encChar 0 (by norm_num), hk,
            Option.getD_some]
          omega
    · refine ⟨encChar (k + 1) :: rest, ?_, ?_, ?_, ?_⟩
      · simp only [incRev, hk, if_neg h31]
      · rw [allValid_cons]; exact ⟨encChar_valid (by omega), hv.2⟩
      · simp
      · simp only [lsbVal, charIdx_encChar (k + 1) (by omega), hk, Option.getD_some]
        omega

lemma incrementBase32_of_valid {s : List Char} (hv : allValid s)
    (h16 : s.length = 16) (hmax : s ≠ List.replicate 16 'Z') :
    ∃ r, incrementBase32 s = .ok r ∧ allValid r ∧ r.length = 16 ∧
      msbVal r = msbVal s + 1 := by
  have hex : ∃ c ∈ s, c ≠ 'Z' := by
    by_contra hall
    push_neg at hall
    exact hmax (List.eq_replicate_iff.mpr ⟨h16, hall⟩)
  obtain ⟨c, hc, hcz⟩ := hex
  obtain ⟨r, hr, hrv, hrl, hrval⟩ :=
    incRev_of_valid s.reverse (allValid_reverse.mpr hv)
      ⟨c, List.mem_reverse.mpr hc, hcz⟩
  refine ⟨r.reverse, ?_, ?_, ?_, ?_⟩
  · unfold incrementBase32
    rw [if_neg (by simp [RANDOM_LEN, h16]), if_neg (by simpa [RANDOM_LEN] using hmax),
      hr]
  · exact allValid_reverse.mpr hrv
  · simpa [hrl] using h16
  · show lsbVal r.reverse.reverse = msbVal s + 1
    rw [List.reverse_reverse, hrval]
    rfl

-- Classification of the carry loop's outcome: drop the trailing run of
-- 'Z' characters (each is replaced by '0'); the loop then succeeds
-- exactly when it finds a further character and that character is in the
-- alphabet.  Characters before that position are never examined.
lemma incRev_classify : ∀ l : List Char,
    (l.dropWhile (fun c => c = 'Z') = [] → incRev l = .error .DecodeError) ∧
    (∀ c m, l.dropWhile (fun c => c = 'Z') = c :: m →
      ((charIdx c).isSome → ∃ r, incRev l = .ok r) ∧
      (charIdx c = none → incRev l = .error .DecodeError)) := by
  intro l
  induction l with
  | nil =>
    constructor
    · intro _; rfl
    · intro c m h; cases h
  | cons c rest ih =>
    by_cases hz : c = 'Z'
    · subst hz
      have hdw : List.dropWhile (fun c => c = 'Z') ('Z' :: rest) =
          List.dropWhile (fun c => c = 'Z') rest := by
        simp [List.dropWhile]
      have hstep : ∀ e, incRev rest = e →
          incRev ('Z' :: rest) = (match e with
            | .error err => .error err
            | .ok r => .ok (encChar 0 :: r)) := by
        intro e he
        have hkz : charIdx 'Z' = some 31 := by decide
        simp only [incRev, hkz, if_pos rfl, he]
        cases e <;> rfl
      constructor
      · intro h
        rw [hdw] at h
        have := ih.1 h
        rw [hstep _ this]
      · intro d m h
        rw [hdw] at h
        obtain ⟨hsome, hnone⟩ := ih.2 d m h
        constructor
        · intro hd
          obtain ⟨r, hr⟩ := hsome hd
          exact ⟨encChar 0 :: r, by rw [hstep _ hr]⟩
        · intro hd
          rw [hstep _ (hnone hd)]
    · have hdw : List.dropWhile (fun c => c = 'Z') (c :: rest) = c :: rest := by
        simp [List.dropWhile, hz]
      constructor
      · intro h
        rw [hdw] at h
        cases h
      · intro d m h
        rw [hdw] at h
        injection h with h1 h2
        subst h1
        subst h2
        constructor
        · intro hd
          obtain ⟨k, hk⟩ := Option.isSome_iff_exists.mp hd
          have hk31 : k ≠ 31 := by
            intro hh
            subst hh
            obtain ⟨-, hke⟩ := charIdx_some hk
            exact hz (by rw [← hke]; rfl)
          exact ⟨encChar (k + 1) :: rest, by simp only [incRev, hk, if_neg hk31]⟩
        · intro hd
          simp only [incRev, hd]

/-! ### The random character source -/

lemma encodeRandom_length (src : Nat → Fin 256) : ∀ n, (encodeRandom src n).length = n := by
  intro n
  induction n with
  | zero => rfl
  | succ n ih => simp [encodeRandom, ih]

lemma encodeRandom_valid (src : Nat → Fin 256) : ∀ n, allValid (encodeRandom src n) := by
  intro n
  induction n with
  | zero => intro c hc; cases hc
  | succ n ih =>
    rw [encodeRandom, allValid_cons]
    exact ⟨randomChar_valid (src n), ih⟩

/-! ### The monotonic generator -/

lemma initState_good : GoodState initState := by
  constructor
  · exact Nat.zero_le _
  · intro r hr; cases hr

lemma validateTimestampN_of_le {t : Nat} (h : t ≤ TIME_MAX) :
    validateTimestampN t = none := by
  unfold validateTimestampN
  rw [if_neg (by omega)]

-- The fresh-timestamp branch of the monotonic generator.
lemma generateMono_fresh {ts? : Option Nat} {now : Nat} {src : Nat → Fin 256}
    {st : GenState} (hlt : st.lastTime < resolveTs ts? now)
    (hmax : resolveTs ts? now ≤ TIME_MAX) :
    generateMono ts? now src st =
      .ok (encodeLoop (resolveTs ts? now) TIME_LEN [] ++ encodeRandom src RANDOM_LEN,
        ⟨resolveTs ts? now, some (encodeRandom src RANDOM_LEN)⟩) := by
  simp [generateMono, validateTimestampN_of_le hmax, hlt, encodeTime_of_le hmax]

-- The stalled-or-regressing branch of the monotonic generator.
lemma generateMono_stall {ts? : Option Nat} {now : Nat} {src : Nat → Fin 256}
    {st : GenState} {lr r : List Char}
    (hle : resolveTs ts? now ≤ st.lastTime) (hmax : st.lastTime ≤ TIME_MAX)
    (hlr : st.lastRandom = some lr) (hinc : incrementBase32 lr = .ok r) :
    generateMono ts? now src st =
      .ok (encodeLoop st.lastTime TIME_LEN [] ++ r, ⟨st.lastTime, some r⟩) := by
  have hvm : resolveTs ts? now ≤ TIME_MAX := Nat.le_trans hle hmax
  have hnlt : ¬ st.lastTime < resolveTs ts? now := by omega
  simp [generateMono, validateTimestampN_of_le hvm, hnlt, hlr, hinc,
    encodeTime_of_le hmax]

-- Inversion: every successful call went through exactly one of the two
-- branches, with the stated output and state update.
lemma generateMono_inv {ts? : Option Nat} {now : Nat} {src : Nat → Fin 256}
    {st : GenState} {id : List Char} {st' : GenState}
    (h : generateMono ts? now src st = .ok (id, st')) :
    resolveTs ts? now ≤ TIME_MAX ∧
      ((st.lastTime < resolveTs ts? now ∧
        id = encodeLoop (resolveTs ts? now) TIME_LEN [] ++ encodeRandom src RANDOM_LEN ∧
        st' = ⟨resolveTs ts? now, some (encodeRandom src RANDOM_LEN)⟩) ∨
       (¬ st.lastTime < resolveTs ts? now ∧ ∃ lr r, st.lastRandom = some lr ∧
        incrementBase32 lr = .ok r ∧ id = encodeLoop st.lastTime TIME_LEN [] ++ r ∧
        st' = ⟨st.lastTime, some r⟩)) := by
  by_cases htmax : resolveTs ts? now ≤ TIME_MAX
  case neg =>
    have hbad : validateTimestampN (resolveTs ts? now) = some .RangeError := by
      rw [validateTimestampN, if_pos (by omega)]
    have : generateMono ts? now src st = .error .RangeError := by
      simp [generateMono, hbad]
    rw [this] at h
    cases h
  case pos =>
  refine ⟨htmax, ?_⟩
  by_cases hlt : st.lastTime < resolveTs ts? now
  · rw [generateMono_fresh hlt htmax] at h
    injection h with h'
    injection h' with h1 h2
    exact Or.inl ⟨hlt, h1.symm, h2.symm⟩
  · cases hlr : st.lastRandom with
    | none =>
      have : generateMono ts? now src st = .error .TypeError := by
        simp [generateMono, validateTimestampN_of_le htmax, hlt, hlr]
      rw [this] at h
      cases h
    | some lr =>
      cases hinc : incrementBase32 lr with
      | error e =>
        have : generateMono ts? now src st = .error e := by
          simp [generateMono, validateTimestampN_of_le htmax, hlt, hlr, hinc]
        rw [this] at h
        cases h
      | ok r =>
        by_cases hstmax : st.lastTime ≤ TIME_MAX
        · rw [generateMono_stall (by omega) hstmax hlr hinc] at h
          injection h with h'
          injection h' with h1 h2
          exact Or.inr ⟨hlt, lr, r, rfl, hinc, h1.symm, h2.symm⟩
        · have hbad : validateTimestampN st.lastTime = some .RangeError := by
            rw [validateTimestampN, if_pos (by omega)]
          have : generateMono ts? now src st = .error .RangeError := by
            simp [generateMono, validateTimestampN_of_le htmax, hlt, hlr, hinc,
              encodeTime, hbad]
          rw [this] at h
          cases h

lemma stateRandomVal_lt {st : GenState} (hg : GoodState st) :
    (match st.lastRandom with
     | some r => msbVal r
     | none => 0) < 32 ^ 16 := by
  cases hsr : st.lastRandom with
  | none => positivity
  | some r0 =>
    obtain ⟨hv0, hl0⟩ := hg.2 r0 hsr
    have := msbVal_lt hv0
    rw [hl0] at this
    exact this

-- One successful call from a good state: the state stays good, the
-- emitted ID is a well-formed 26-character string, its value strictly
-- exceeds the state's value, and the new state's value is the ID's value.
lemma generateMono_step {ts? : Option Nat} {now : Nat} {src : Nat → Fin 256}
    {st : GenState} {id : List Char} {st' : GenState} (hg : GoodState st)
    (h : generateMono ts? now src st = .ok (id, st')) :
    GoodState st' ∧ allValid id ∧ id.length = 26 ∧
      stateVal st < msbVal id ∧ stateVal st' = msbVal id := by
  obtain ⟨htmax, hbr⟩ := generateMono_inv h
  rcases hbr with ⟨hlt, hid, hst⟩ | ⟨hnlt, lr, r, hlr, hinc, hid, hst⟩
  · subst hid
    subst hst
    have hidval : msbVal (encodeLoop (resolveTs ts? now) TIME_LEN [] ++
        encodeRandom src RANDOM_LEN) =
        resolveTs ts? now * 32 ^ 16 + msbVal (encodeRandom src RANDOM_LEN) := by
      rw [msbVal_append, encodeRandom_length, encodeLoop_msbVal_of_le htmax]
      norm_num [RANDOM_LEN]
    refine ⟨⟨htmax, ?_⟩, ?_, ?_, ?_, ?_⟩
    · intro r hr
      injection hr with hr'
      subst hr'
      exact ⟨encodeRandom_valid src _, encodeRandom_length src _⟩
    · exact allValid_append.mpr ⟨encodeLoop_valid _ _, encodeRandom_valid src _⟩
    · simp [encodeLoop_length, encodeRandom_length, TIME_LEN, RANDOM_LEN]
    · rw [hidval]
      exact val_head_lt hlt (stateRandomVal_lt hg)
    · rw [hidval]
      rfl
  · subst hid
    subst hst
    obtain ⟨hvlr, hllr⟩ := hg.2 lr hlr
    have hne : lr ≠ List.replicate 16 'Z' := by
      intro hrep
      rw [hrep] at hinc
      rw [show incrementBase32 (List.replicate 16 'Z') = .error .OverflowError from
        rfl] at hinc
      cases hinc
    obtain ⟨r2, hr2, hrv, hrl, hrval⟩ := incrementBase32_of_valid hvlr hllr hne
    rw [hinc] at hr2
    injection hr2 with hr2'
    subst hr2'
    have hidval : msbVal (encodeLoop st.lastTime TIME_LEN [] ++ r) =
        st.lastTime * 32 ^ 16 + (msbVal lr + 1) := by
      rw [msbVal_append, hrl, encodeLoop_msbVal_of_le hg.1, hrval]
    refine ⟨⟨hg.1, ?_⟩, ?_, ?_, ?_, ?_⟩
    · intro r' hr'
      injection hr' with hr''
      subst hr''
      exact ⟨hrv, hrl⟩
    · exact allValid_append.mpr ⟨encodeLoop_valid _ _, hrv⟩
    · simp [encodeLoop_length, hrl, TIME_LEN]
    · rw [hidval]
      unfold stateVal
      rw [hlr]
      exact Nat.add_lt_add_left (Nat.lt_succ_self _) _
    · rw [hidval]
      show st.lastTime * 32 ^ 16 + msbVal r = _
      rw [hrval]

-- Running any input sequence from a good state: every emitted ID is
-- well-formed and the values of the emitted IDs form a strictly
-- increasing chain above the starting state's value.
lemma runMono_good : ∀ (ins : List CallIn) (st : GenState) (outs : List (List Char)),
    GoodState st → runMono st ins = .ok outs →
    (∀ id ∈ outs, allValid id ∧ id.length = 26) ∧
      List.Chain (fun a b => a < b) (stateVal st) (outs.map msbVal) := by
  intro ins
  induction ins with
  | nil =>
    intro st outs _ h
    simp only [runMono] at h
    injection h with h'
    subst h'
    refine ⟨?_, List.Chain.nil⟩
    intro id hid
    cases hid
  | cons i rest ih =>
    intro st outs hg h
    simp only [runMono] at h
    split at h
    · cases h
    · rename_i id st' heq
      split at h
      · cases h
      · rename_i ids heq2
        injection h with h'
        subst h'
        obtain ⟨hg', hvalid, hlen, hlt, hsv⟩ := generateMono_step hg heq
        obtain ⟨hall, hchain⟩ := ih st' ids hg' heq2
        constructor
        · intro x hx
          rcases List.mem_cons.mp hx with rfl | hx'
          · exact ⟨hvalid, hlen⟩
          · exact hall x hx'
        · simp only [List.map_cons]
          exact List.Chain.cons hlt (hsv ▸ hchain)

lemma generateNonMono_eq {ts? : Option Nat} {now : Nat} {src : Nat → Fin 256}
    (hmax : resolveTs ts? now ≤ TIME_MAX) :
    generateNonMono ts? now src =
      .ok (encodeLoop (resolveTs ts? now) TIME_LEN [] ++ encodeRandom src RANDOM_LEN) := by
  simp [generateNonMono, validateTimestampN_of_le hmax, encodeTime_of_le hmax]

/-! ### Claim theorems -/

/-- C1: for every finite sequence of `generate` calls on a single monotonic
generator instance in which every resolved timestamp validates and no call
raises an error, the emitted ULID strings are strictly increasing in
lexicographic order, regardless of the relative ordering of the supplied
timestamps. -/
theorem ulid_monotonic_strictly_increasing (ins : List CallIn)
    (outs : List (List Char)) (h : runMono initState ins = .ok outs) :
    outs.Pairwise (fun a b => lexLt a b = true) := by
  obtain ⟨hall, hchain⟩ := runMono_good ins initState outs initState_good h
  have hp : (outs.map msbVal).Pairwise (fun a b => a < b) :=
    (List.pairwise_cons.mp (List.chain_iff_pairwise.mp hchain)).2
  have hp2 : outs.Pairwise (fun a b => msbVal a < msbVal b) := List.pairwise_map.mp hp
  refine List.Pairwise.imp_of_mem ?_ hp2
  intro a b ha hb hab
  obtain ⟨hav, hal⟩ := hall a ha
  obtain ⟨hbv, hbl⟩ := hall b hb
  exact (lexLt_iff a b hav hbv (by omega)).mpr hab

/-- Witness for C1: a run with a frozen and then regressing clock produces
a strictly increasing output sequence. -/
theorem ulid_monotonic_strictly_increasing_witness :
    ["01ARYZ6S410000000000000000".toList, "01ARYZ6S410000000000000001".toList,
     "01ARYZ6S410000000000000002".toList,
     "01ARYZ6S410000000000000003".toList].Pairwise (fun a b => lexLt a b = true) :=
  ulid_monotonic_strictly_increasing
    [⟨some 1469918176385, 0, fun _ => 0⟩, ⟨some 1469918176385, 0, fun _ => 0⟩,
     ⟨some 1469918175385, 0, fun _ => 0⟩, ⟨some 1469918176385, 0, fun _ => 0⟩]
    _ rfl

/-- C2 counterexample: the claim fails at the explicit timestamp `t = 0`.
Because `timestamp || Date.now()` treats `0` as absent, `generate(0)` with
the clock at 1 ms emits an ID whose decoded timestamp is 1, not 0. -/
theorem ulid_zero_timestamp_counterexample :
    generateNonMono (some 0) 1 (fun _ => 0) =
      .ok "00000000010000000000000000".toList ∧
    decodeTime "00000000010000000000000000".toList = .ok 1 ∧ (1 : Nat) ≠ 0 :=
  ⟨rfl, rfl, by norm_num⟩

/-- C2 (amended): for every explicitly supplied timestamp `t` with
`1 ≤ t ≤ 2^48 - 1`, a freshly constructed generator of either variant uses
`t` as the ID's timestamp: `decode_time` of the output is exactly `t`.
(The claim's inclusion of `t = 0` fails: `0` is falsy, so it is replaced
by the current clock value.) -/
theorem ulid_explicit_timestamp_roundtrip (t now : Nat) (src : Nat → Fin 256)
    (h1 : 1 ≤ t) (h2 : t ≤ TIME_MAX) :
    (∃ id st', generateMono (some t) now src initState = .ok (id, st') ∧
      decodeTime id = .ok t) ∧
    (∃ id, generateNonMono (some t) now src = .ok id ∧ decodeTime id = .ok t) := by
  have hres : resolveTs (some t) now = t := by
    show (if t = 0 then now else t) = t
    rw [if_neg (by omega)]
  have hmax : resolveTs (some t) now ≤ TIME_MAX := by rw [hres]; exact h2
  have hdec : decodeTime (encodeLoop t TIME_LEN [] ++ encodeRandom src RANDOM_LEN) =
      .ok t := by
    have h10 : (encodeLoop t TIME_LEN []).length = 10 := encodeLoop_length _ _
    have h16 : (encodeRandom src RANDOM_LEN).length = 16 := encodeRandom_length _ _
    have hle : msbVal (encodeLoop t TIME_LEN []) ≤ TIME_MAX := by
      rw [encodeLoop_msbVal_of_le h2]; exact h2
    rw [decodeTime_front h10 h16 (encodeLoop_valid _ _) hle,
      encodeLoop_msbVal_of_le h2]
  constructor
  · refine ⟨encodeLoop t TIME_LEN [] ++ encodeRandom src RANDOM_LEN,
      ⟨t, some (encodeRandom src RANDOM_LEN)⟩, ?_, hdec⟩
    have hlt : initState.lastTime < resolveTs (some t) now := by
      rw [hres]; exact h1
    rw [generateMono_fresh hlt hmax, hres]
  · refine ⟨encodeLoop t TIME_LEN [] ++ encodeRandom src RANDOM_LEN, ?_, hdec⟩
    rw [generateNonMono_eq hmax, hres]

/-- Witness for C2 (amended), at the README timestamp. -/
theorem ulid_explicit_timestamp_roundtrip_witness :
    (∃ id st', generateMono (some 1469918176385) 0 (fun _ => 0) initState =
        .ok (id, st') ∧ decodeTime id = .ok 1469918176385) ∧
    (∃ id, generateNonMono (some 1469918176385) 0 (fun _ => 0) = .ok id ∧
      decodeTime id = .ok 1469918176385) :=
  ulid_explicit_timestamp_roundtrip 1469918176385 0 (fun _ => 0) (by norm_num)
    (by norm_num [TIME_MAX])

/-- C3: on a monotonic generator whose state holds a last timestamp and
last random from a previous successful call, every call whose resolved
timestamp is at most the stored timestamp leaves the timestamp unchanged,
stores the incremented random field, and emits the stored timestamp's
encoding followed by that incremented random field; concretely, with a
zero-byte random source, the call sequence at timestamp 1469918176385
followed by three earlier-or-equal timestamps emits the four expected
strings. -/
theorem ulid_stall_increments_random :
    (∀ (st : GenState) (lr r : List Char) (ts? : Option Nat) (now : Nat)
      (src : Nat → Fin 256),
      st.lastTime ≤ TIME_MAX → st.lastRandom = some lr →
      resolveTs ts? now ≤ st.lastTime → incrementBase32 lr = .ok r →
      generateMono ts? now src st =
        .ok (encodeLoop st.lastTime TIME_LEN [] ++ r, ⟨st.lastTime, some r⟩)) ∧
    runMono initState
      [⟨some 1469918176385, 0, fun _ => 0⟩, ⟨some 1469918176385, 0, fun _ => 0⟩,
       ⟨some 1469918175385, 0, fun _ => 0⟩, ⟨some 1469918176385, 0, fun _ => 0⟩] =
      .ok ["01ARYZ6S410000000000000000".toList, "01ARYZ6S410000000000000001".toList,
        "01ARYZ6S410000000000000002".toList, "01ARYZ6S410000000000000003".toList] := by
  constructor
  · intro st lr r ts? now src hmax hlr hle hinc
    exact generateMono_stall hle hmax hlr hinc
  · rfl

/-- Witness for C3: a stalled call from the state reached after the first
README call increments the stored random field. -/
theorem ulid_stall_increments_random_witness :
    generateMono (some 1469918175385) 0 (fun _ => 0)
        ⟨1469918176385, some (List.replicate 16 '0')⟩ =
      .ok (encodeLoop 1469918176385 TIME_LEN [] ++ "0000000000000001".toList,
        ⟨1469918176385, some "0000000000000001".toList⟩) :=
  ulid_stall_increments_random.1 ⟨1469918176385, some (List.replicate 16 '0')⟩
    (List.replicate 16 '0') "0000000000000001".toList (some 1469918175385) 0
    (fun _ => 0) (by decide) rfl (by decide) rfl

/-- C4: for every timestamp `t ≤ 2^48 - 1`, the 10-character string
produced by the time encoder decodes back to `t` under the decoder's
accumulation loop: the decoder is a left inverse of the width-10 encoder
on all valid timestamps. -/
theorem ulid_encode_decode_roundtrip (t : Nat) (h : t ≤ TIME_MAX) :
    ∃ s, encodeTime t TIME_LEN = .ok s ∧ s.length = TIME_LEN ∧
      decodeLoop s.reverse 0 0 = .ok t := by
  have hv := decodeLoop_of_valid (encodeLoop t TIME_LEN []).reverse 0 0
    (allValid_reverse.mpr (encodeLoop_valid _ _))
  have hval : (0 : Nat) + 32 ^ 0 * lsbVal (encodeLoop t TIME_LEN []).reverse = t := by
    show (0 : Nat) + 32 ^ 0 * msbVal (encodeLoop t TIME_LEN []) = t
    rw [encodeLoop_msbVal_of_le h]
    ring
  rw [hval] at hv
  exact ⟨encodeLoop t TIME_LEN [], encodeTime_of_le h, encodeLoop_length _ _, hv⟩

/-- Witness for C4, at the README timestamp. -/
theorem ulid_encode_decode_roundtrip_witness :
    ∃ s, encodeTime 1469918176385 TIME_LEN = .ok s ∧ s.length = TIME_LEN ∧
      decodeLoop s.reverse 0 0 = .ok 1469918176385 :=
  ulid_encode_decode_roundtrip 1469918176385 (by norm_num [TIME_MAX])

/-- C5: on well-formed fixed-width (16-character) Base32 strings strictly
below the maximum value, `incrementBase32` is order-preserving and
injective, and applied to the maximum value (16 copies of `'Z'`) it fails
with `OverflowError`. -/
theorem ulid_increment_injective_monotone :
    (∀ s t : List Char, allValid s → allValid t → s.length = 16 → t.length = 16 →
      s ≠ List.replicate 16 'Z' → t ≠ List.replicate 16 'Z' →
      (lexLt s t = true →
        ∃ s2 t2, incrementBase32 s = .ok s2 ∧ incrementBase32 t = .ok t2 ∧
          lexLt s2 t2 = true) ∧
      (incrementBase32 s = incrementBase32 t → s = t)) ∧
    incrementBase32 (List.replicate 16 'Z') = .error .OverflowError := by
  constructor
  · intro s t hs ht hsl htl hsm htm
    obtain ⟨s2, hs2, hs2v, hs2l, hs2val⟩ := incrementBase32_of_valid hs hsl hsm
    obtain ⟨t2, ht2, ht2v, ht2l, ht2val⟩ := incrementBase32_of_valid ht htl htm
    constructor
    · intro hlex
      refine ⟨s2, t2, hs2, ht2, ?_⟩
      have hval : msbVal s < msbVal t := (lexLt_iff s t hs ht (by omega)).mp hlex
      exact (lexLt_iff s2 t2 hs2v ht2v (by omega)).mpr (by omega)
    · intro heq
      rw [hs2, ht2] at heq
      injection heq with heq'
      subst heq'
      exact msbVal_inj hs ht (by omega) (by omega)
  · rfl

/-- Witness for C5: order preservation at two concrete strings. -/
theorem ulid_increment_injective_monotone_witness :
    ∃ s2 t2, incrementBase32 "0000000000000000".toList = .ok s2 ∧
      incrementBase32 "000000000000000A".toList = .ok t2 ∧ lexLt s2 t2 = true :=
  (ulid_increment_injective_monotone.1 "0000000000000000".toList
    "000000000000000A".toList (by decide) (by decide) (by decide) (by decide)
    (by decide) (by decide)).1 (by decide)

/-- C6 counterexample: the claim's error taxonomy fails on the code.  The
all-`'Z'` string of width 2 (below the fixed width 16) raises
`DecodeError` ("Incorrectly encoded string"), not `OverflowError`; and a
string containing a character outside the alphabet left of the rightmost
non-`'Z'` character is incremented successfully instead of raising
`DecodeError`. -/
theorem ulid_increment_error_counterexample :
    incrementBase32 ('Z' :: ['Z']) = .error .DecodeError ∧
    incrementBase32 "!000000000000000".toList = .ok "!000000000000001".toList :=
  ⟨rfl, rfl⟩

/-- C6 (amended): `incrementBase32 s` fails with `LengthError` when `s` is
longer than 16 characters; with `OverflowError` exactly when `s` is the
16-character all-`'Z'` string; otherwise the carry loop walks `s` from the
right through the trailing run of `'Z'` characters and fails with
`DecodeError` when it runs off the start of the string (an all-`'Z'`
string shorter than 16, including the empty string) or meets a character
outside the alphabet, and succeeds when the first non-`'Z'` character it
meets is in the alphabet — characters to its left are never examined. -/
theorem ulid_increment_error_taxonomy :
    (∀ s : List Char, 16 < s.length → incrementBase32 s = .error .LengthError) ∧
    incrementBase32 (List.replicate 16 'Z') = .error .OverflowError ∧
    (∀ s : List Char, s.length ≤ 16 → s ≠ List.replicate 16 'Z' →
      (s.reverse.dropWhile (fun c => c = 'Z') = [] →
        incrementBase32 s = .error .DecodeError) ∧
      (∀ c m, s.reverse.dropWhile (fun c => c = 'Z') = c :: m →
        (c ∈ ENCODING → ∃ r, incrementBase32 s = .ok r) ∧
        (c ∉ ENCODING → incrementBase32 s = .error .DecodeError))) := by
  refine ⟨?_, rfl, ?_⟩
  · intro s h
    unfold incrementBase32
    rw [if_pos (by simpa [RANDOM_LEN] using h)]
  · intro s hlen hne
    have hbase : ∀ e, incRev s.reverse = e → incrementBase32 s =
        (match e with
         | .error err => .error err
         | .ok r => .ok r.reverse) := by
      intro e he
      unfold incrementBase32
      rw [if_neg (by simpa [RANDOM_LEN] using (by omega : ¬ 16 < s.length)),
        if_neg (by simpa [RANDOM_LEN] using hne), he]
    obtain ⟨hnil, hcons⟩ := incRev_classify s.reverse
    constructor
    · intro h
      rw [hbase _ (hnil h)]
    · intro c m h
      obtain ⟨hsome, hnone⟩ := hcons c m h
      constructor
      · intro hc
        obtain ⟨r, hr⟩ := hsome (charIdx_isSome_iff.mpr hc)
        exact ⟨r.reverse, by rw [hbase _ hr]⟩
      · intro hc
        have hn : charIdx c = none := by
          rw [← Option.not_isSome_iff_eq_none, charIdx_isSome_iff]
          exact hc
        rw [hbase _ (hnone hn)]

/-- Witness for C6 (amended): a 17-character string raises `LengthError`. -/
theorem ulid_increment_error_taxonomy_witness :
    incrementBase32 (List.replicate 17 '0') = .error .LengthError :=
  ulid_increment_error_taxonomy.1 (List.replicate 17 '0') (by decide)

/-- C7: `decodeTime` fails with `FormatError` when the length differs from
26; otherwise with `DecodeError` when one of the first ten characters is
outside the alphabet; otherwise with `RangeError` when the decoded value
exceeds `2^48 - 1`; otherwise it returns the decoded value.  Concretely,
the README ULID decodes to 1469918176385 and the maximal ULID to
281474976710655. -/
theorem ulid_decodeTime_taxonomy :
    (∀ id : List Char, id.length ≠ 26 → decodeTime id = .error .FormatError) ∧
    (∀ id : List Char, id.length = 26 → (∃ c ∈ id.take 10, c ∉ ENCODING) →
      decodeTime id = .error .DecodeError) ∧
    (∀ id : List Char, id.length = 26 → (∀ c ∈ id.take 10, c ∈ ENCODING) →
      TIME_MAX < msbVal (id.take 10) → decodeTime id = .error .RangeError) ∧
    (∀ id : List Char, id.length = 26 → (∀ c ∈ id.take 10, c ∈ ENCODING) →
      msbVal (id.take 10) ≤ TIME_MAX → decodeTime id = .ok (msbVal (id.take 10))) ∧
    decodeTime "01ARYZ6S41TSV4RRFFQ69G5FAV".toList = .ok 1469918176385 ∧
    decodeTime "7ZZZZZZZZZZZZZZZZZZZZZZZZZ".toList = .ok 281474976710655 := by
  refine ⟨?_, ?_, ?_, ?_, rfl, rfl⟩
  · exact fun id h => decodeTime_of_bad_length h
  · intro id h26 h
    obtain ⟨c, hc, hcn⟩ := h
    refine decodeTime_of_bad_char h26 ⟨c, hc, ?_⟩
    rw [← Option.not_isSome_iff_eq_none, charIdx_isSome_iff]
    exact hcn
  · intro id h26 hv hgt
    exact decodeTime_of_large h26 (fun c hc => charIdx_isSome_iff.mpr (hv c hc)) hgt
  · intro id h26 hv hle
    exact decodeTime_of_ok h26 (fun c hc => charIdx_isSome_iff.mpr (hv c hc)) hle

/-- Witness for C7: a four-character string raises `FormatError`. -/
theorem ulid_decodeTime_taxonomy_witness :
    decodeTime "FFFF".toList = .error .FormatError :=
  ulid_decodeTime_taxonomy.1 "FFFF".toList (by decide)

/-- C8: `validateTimestamp` rejects NaN with `TypeError`, values above
`2^48 - 1` (including positive infinity) with `RangeError`, negative
values (including negative infinity) with `RangeError`, and otherwise
in-range non-integers with `ValueError`; it returns nothing for every
integer in `[0, 2^48 - 1]`. -/
theorem ulid_validateTimestamp_taxonomy :
    validateTimestamp .nan = some .TypeError ∧
    validateTimestamp .posInf = some .RangeError ∧
    validateTimestamp .negInf = some .RangeError ∧
    (∀ q : ℚ, (TIME_MAX : ℚ) < q → validateTimestamp (.fin q) = some .RangeError) ∧
    (∀ q : ℚ, q < 0 → validateTimestamp (.fin q) = some .RangeError) ∧
    (∀ q : ℚ, 0 ≤ q → q ≤ (TIME_MAX : ℚ) → q.den ≠ 1 →
      validateTimestamp (.fin q) = some .ValueError) ∧
    (∀ n : Nat, n ≤ TIME_MAX → validateTimestamp (.fin (n : ℚ)) = none) := by
  refine ⟨rfl, rfl, rfl, ?_, ?_, ?_, ?_⟩
  · intro q h
    simp only [validateTimestamp]
    rw [if_pos h]
  · intro q h
    have h2 : ¬ (TIME_MAX : ℚ) < q := by
      have h0 : (0 : ℚ) ≤ (TIME_MAX : ℚ) := by positivity
      push_neg
      linarith
    simp only [validateTimestamp]
    rw [if_neg h2, if_pos h]
  · intro q h0 hm hden
    simp only [validateTimestamp]
    rw [if_neg (not_lt.mpr hm), if_neg (not_lt.mpr h0), if_pos hden]
  · intro n h
    have h1 : ¬ (TIME_MAX : ℚ) < (n : ℚ) := by
      push_neg
      exact_mod_cast h
    have h2 : ¬ (n : ℚ) < 0 := by
      push_neg
      positivity
    simp only [validateTimestamp]
    rw [if_neg h1, if_neg h2, if_neg (by simp [Rat.den_natCast])]

/-- Witness for C8: the valid timestamp 0 validates, and one half is
rejected as a non-integer. -/
theorem ulid_validateTimestamp_taxonomy_witness :
    validateTimestamp (.fin ((0 : Nat) : ℚ)) = none ∧
    validateTimestamp (.fin (1 / 2 : ℚ)) = some .ValueError :=
  ⟨ulid_validateTimestamp_taxonomy.2.2.2.2.2.2 0 (Nat.zero_le _),
   ulid_validateTimestamp_taxonomy.2.2.2.2.2.1 (1 / 2 : ℚ) (by norm_num)
     (by norm_num [TIME_MAX]) (by norm_num)⟩

/-- C9: every ID emitted by a successful call — on the monotonic variant
from any state reachable from a fresh instance, or on the stateless
non-monotonic variant — is exactly 26 characters long and uses only the
32 alphabet characters. -/
theorem ulid_generated_ids_wellformed :
    (∀ (ins : List CallIn) (outs : List (List Char)),
      runMono initState ins = .ok outs →
      ∀ id ∈ outs, id.length = 26 ∧ ∀ c ∈ id, c ∈ ENCODING) ∧
    (∀ (ts? : Option Nat) (now : Nat) (src : Nat → Fin 256) (id : List Char),
      generateNonMono ts? now src = .ok id →
      id.length = 26 ∧ ∀ c ∈ id, c ∈ ENCODING) := by
  constructor
  · intro ins outs h id hid
    obtain ⟨hall, -⟩ := runMono_good ins initState outs initState_good h
    obtain ⟨hv, hl⟩ := hall id hid
    exact ⟨hl, fun c hc => charIdx_isSome_iff.mp (hv c hc)⟩
  · intro ts? now src id h
    by_cases hmax : resolveTs ts? now ≤ TIME_MAX
    · rw [generateNonMono_eq hmax] at h
      injection h with h'
      subst h'
      constructor
      · simp [encodeLoop_length, encodeRandom_length, TIME_LEN, RANDOM_LEN]
      · intro c hc
        rcases List.mem_append.mp hc with hc | hc
        · exact charIdx_isSome_iff.mp (encodeLoop_valid _ _ c hc)
        · exact charIdx_isSome_iff.mp (encodeRandom_valid src _ c hc)
    · have hbad : validateTimestampN (resolveTs ts? now) = some .RangeError := by
        rw [validateTimestampN, if_pos (by omega)]
      have herr : generateNonMono ts? now src = .error .RangeError := by
        simp [generateNonMono, hbad]
      rw [herr] at h
      cases h

/-- Witness for C9: the ID produced by the non-monotonic generator at
timestamp 1 is a well-formed 26-character Base32 string. -/
theorem ulid_generated_ids_wellformed_witness :
    "00000000010000000000000000".toList.length = 26 ∧
      ∀ c ∈ "00000000010000000000000000".toList, c ∈ ENCODING :=
  ulid_generated_ids_wellformed.2 (some 1) 0 (fun _ => 0)
    "00000000010000000000000000".toList rfl

/-- C10: `decodeTime` never examines the last 16 characters: a
26-character string whose first ten characters are alphabet symbols
decoding to at most `2^48 - 1` decodes to that value whatever the last 16
characters are, and any two length-16 tails give identical results
(including identical errors). -/
theorem ulid_decodeTime_ignores_random_field :
    (∀ pre suf : List Char, pre.length = 10 → suf.length = 16 →
      allValid pre → msbVal pre ≤ TIME_MAX →
      decodeTime (pre ++ suf) = .ok (msbVal pre)) ∧
    (∀ pre suf1 suf2 : List Char, suf1.length = 16 → suf2.length = 16 →
      decodeTime (pre ++ suf1) = decodeTime (pre ++ suf2)) := by
  constructor
  · intro pre suf h10 h16 hv hle
    exact decodeTime_front h10 h16 hv hle
  · intro pre suf1 suf2 h1 h2
    by_cases h10 : pre.length = 10
    · have ht1 : (pre ++ suf1).take 10 = (pre ++ suf2).take 10 := by
        rw [List.take_append_of_le_length (by omega),
          List.take_append_of_le_length (by omega)]
      have hl : (pre ++ suf1).length = (pre ++ suf2).length := by
        simp [h1, h2]
      unfold decodeTime
      simp only [TIME_LEN, RANDOM_LEN]
      rw [hl, ht1]
    · rw [decodeTime_of_bad_length (by simp only [List.length_append, h1]; omega),
        decodeTime_of_bad_length (by simp only [List.length_append, h2]; omega)]

/-- Witness for C10: the README time prefix decodes correctly even when
the 16 trailing characters are all outside the alphabet. -/
theorem ulid_decodeTime_ignores_random_field_witness :
    decodeTime ("01ARYZ6S41".toList ++ List.replicate 16 '!') =
      .ok (msbVal "01ARYZ6S41".toList) :=
  ulid_decodeTime_ignores_random_field.1 "01ARYZ6S41".toList
    (List.replicate 16 '!') (by decide) (by decide) (by decide) (by decide)

end UlidWorkers
